import Mathlib

/-
Verification of the core of tree3.js: enumeration of labeled rooted trees,
the topological tree-embedding predicate, and the bad-sequence search helpers.

JavaScript values are embedded shallowly:
* a tree object { label, children } becomes the inductive type Tree3.Tree;
* a JS string becomes a list of characters (List Char); String(n) for a
  non-negative integer n is its decimal rendering without leading zeros;
* generators become the lists of the values they yield, in yield order;
* the worker pool resolves each submitted task with embeds(pattern, target)
  (tree-worker.js onmessage), and isValidExtension awaits results in
  submission order, so its value is modeled by direct sequential evaluation.
-/

set_option maxHeartbeats 1000000
set_option maxRecDepth 20000

namespace Tree3

/-- A labeled rooted tree, the plain object { label: number, children: [Tree, ...] }
of the source: an integer label and an ordered list of child trees. -/
inductive Tree where
  | node (label : Nat) (children : List Tree)

namespace Tree

/-- The label field of a tree object. -/
def label : Tree → Nat
  | .node l _ => l

/-- The children field of a tree object. -/
def children : Tree → List Tree
  | .node _ cs => cs

@[simp] theorem label_node (l : Nat) (cs : List Tree) : (Tree.node l cs).label = l := rfl

@[simp] theorem children_node (l : Nat) (cs : List Tree) :
    (Tree.node l cs).children = cs := rfl

theorem sizeOf_children_lt (t : Tree) : sizeOf t.children < sizeOf t := by
  cases t with
  | node l cs => simp

end Tree

mutual

/-- embeds(A, B) from tree-worker.js: true if A root-embeds at B, or A embeds
into some child of B. -/
def embeds (A B : Tree) : Bool :=
  rootEmbeds A B || embedsAnyChild A B.children
termination_by 2 * sizeOf B + 1
decreasing_by
  all_goals (have h := Tree.sizeOf_children_lt B; omega)

/-- The loop "for (const child of B.children) if (embeds(A, child)) return true"
of embeds, as a recursion over the remaining children. -/
def embedsAnyChild (A : Tree) (cs : List Tree) : Bool :=
  match cs with
  | [] => false
  | c :: rest => embeds A c || embedsAnyChild A rest
termination_by 2 * sizeOf cs
decreasing_by
  · simp only [List.cons.sizeOf_spec]; omega
  · simp only [List.cons.sizeOf_spec]; omega

/-- rootEmbeds(pattern, target) from tree-worker.js: labels must agree; a leaf
pattern then matches; otherwise the pattern children must match into the
target children. -/
def rootEmbeds (pattern target : Tree) : Bool :=
  if pattern.label ≠ target.label then false
  else if pattern.children.isEmpty then true
  else matchChildren pattern.children target.children
termination_by 2 * sizeOf target
decreasing_by
  · have := Tree.sizeOf_children_lt target; omega

/-- matchChildren(pkids, tkids) from tree-worker.js.  The source iterates over
tkids with index i, trying at each target child tchild = tkids[i]:
(1) rootEmbeds(first, tchild) and then the remaining pattern children against
tkids.slice(i+1); (2) the whole pattern list against tchild's own children.
Recursing on the tail of tkids expresses the same loop. -/
def matchChildren (pkids tkids : List Tree) : Bool :=
  match pkids with
  | [] => true
  | first :: rest =>
    match tkids with
    | [] => false
    | tchild :: trest =>
      (rootEmbeds first tchild && matchChildren rest trest)
      || matchChildren (first :: rest) tchild.children
      || matchChildren (first :: rest) trest
termination_by 2 * sizeOf tkids
decreasing_by
  all_goals simp only [List.cons.sizeOf_spec]
  all_goals try omega
  all_goals (have h := Tree.sizeOf_children_lt c; omega)

end

/-- compositions(total) from main.js: the generator yields, for each first
part from 1 to total, each composition of the remainder prefixed with that
part; compositions(0) yields the empty composition only.  The generator is
modeled as the list of its yields in yield order. -/
def compositions (total : Nat) : List (List Nat) :=
  if h : total = 0 then [[]]
  else
    (List.range total).flatMap (fun k =>
      (compositions (total - (k + 1))).map (fun rest => (k + 1) :: rest))
termination_by total
decreasing_by
  have : 0 < total := Nat.pos_of_ne_zero h
  omega

theorem compositions_zero : compositions 0 = [[]] := by
  simp [compositions]

theorem compositions_succ (t : Nat) :
    compositions (t + 1) =
      (List.range (t + 1)).flatMap (fun k =>
        (compositions (t - k)).map (fun rest => (k + 1) :: rest)) := by
  rw [compositions]
  simp

theorem compositions_sum_pos :
    ∀ (total : Nat), ∀ c ∈ compositions total, c.sum = total ∧ ∀ p ∈ c, 1 ≤ p := by
  intro total
  induction total using Nat.strong_induction_on with
  | _ total ih =>
    intro c hc
    match total with
    | 0 =>
      rw [compositions_zero] at hc
      simp at hc
      simp [hc]
    | t + 1 =>
      rw [compositions_succ] at hc
      simp only [List.mem_flatMap, List.mem_map, List.mem_range] at hc
      obtain ⟨k, hk, rest, hrest, rfl⟩ := hc
      have hr := ih (t - k) (by omega) rest hrest
      refine ⟨by simp [hr.1]; omega, ?_⟩
      intro p hp
      rcases List.mem_cons.mp hp with h | h
      · omega
      · exact hr.2 p h

theorem mem_compositions_le (total : Nat) (c : List Nat) (p : Nat)
    (hc : c ∈ compositions total) (hp : p ∈ c) : p ≤ total := by
  have h := compositions_sum_pos total c hc
  calc p ≤ c.sum := List.single_le_sum (fun x _ => Nat.zero_le x) p hp
    _ = total := h.1

/-- cartesian(lists) from main.js: start from the single empty tuple and,
for each list in order, extend every partial tuple by every element of that
list (the explicit early return for an empty input yields the same [[]]). -/
def cartesian {α : Type} (lists : List (List α)) : List (List α) :=
  lists.foldl
    (fun acc list => acc.flatMap (fun pre => list.map (fun item => pre ++ [item])))
    [[]]

theorem foldl_cartesian_mem {α : Type} :
    ∀ (lists : List (List α)) (acc : List (List α)) (x : List α),
      x ∈ lists.foldl
        (fun acc list => acc.flatMap (fun pre => list.map (fun item => pre ++ [item])))
        acc →
      ∃ p ∈ acc, ∃ s, x = p ++ s ∧ List.Forall₂ (fun a l => a ∈ l) s lists := by
  intro lists
  induction lists with
  | nil =>
    intro acc x hx
    exact ⟨x, hx, [], by simp⟩
  | cons L Ls ih =>
    intro acc x hx
    simp only [List.foldl_cons] at hx
    obtain ⟨p', hp', s', hx', hforall⟩ := ih _ x hx
    simp only [List.mem_flatMap, List.mem_map] at hp'
    obtain ⟨p, hp, a, ha, rfl⟩ := hp'
    exact ⟨p, hp, a :: s', by simp [hx'], List.Forall₂.cons ha hforall⟩

theorem mem_cartesian {α : Type} (lists : List (List α)) (x : List α)
    (hx : x ∈ cartesian lists) : List.Forall₂ (fun a l => a ∈ l) x lists := by
  obtain ⟨p, hp, s, rfl, hforall⟩ := foldl_cartesian_mem lists [[]] x hx
  simp at hp
  simpa [hp] using hforall

/-- The decimal rendering of a non-negative integer: JS String(label) for
an integer label, most-significant digit first, no leading zeros, "0" for 0. -/
def natChars (n : Nat) : List Char :=
  if n < 10 then [Char.ofNat (48 + n)]
  else natChars (n / 10) ++ [Char.ofNat (48 + n % 10)]
termination_by n
decreasing_by exact Nat.div_lt_self (by omega) (by omega)

mutual

/-- treeKey(tree) from main.js, with JS strings as character lists: a leaf
is its label in decimal; an internal node is the label followed by "(",
the children keys joined with ",", and ")".  Char.ofNat 40, 44, 41 are the
characters left parenthesis, comma, right parenthesis. -/
def treeKey : Tree → List Char
  | .node l [] => natChars l
  | .node l (c :: cs) =>
      natChars l ++ [Char.ofNat 40] ++ treeKeyList (c :: cs) ++ [Char.ofNat 41]
termination_by t => sizeOf t
decreasing_by
  simp only [Tree.node.sizeOf_spec]; omega

/-- children.map(treeKey).join(",") from main.js. -/
def treeKeyList : List Tree → List Char
  | [] => []
  | [t] => treeKey t
  | t :: ts => treeKey t ++ [Char.ofNat 44] ++ treeKeyList ts
termination_by ts => sizeOf ts
decreasing_by
  · simp only [List.cons.sizeOf_spec, List.nil.sizeOf_spec]; omega
  · simp only [List.cons.sizeOf_spec]; omega
  · simp only [List.cons.sizeOf_spec]; omega

end

/-- The deduplication loop of treesOfSize in main.js: iterate over the
candidate trees, keep the first tree seen for each distinct treeKey, in
insertion order; the second argument is the set of keys already present in
the seen map. -/
def dedupByKey : List Tree → List (List Char) → List Tree
  | [], _ => []
  | t :: rest, seen =>
    if treeKey t ∈ seen then dedupByKey rest seen
    else t :: dedupByKey rest (treeKey t :: seen)

/-- treesOfSize(size, n) from main.js (the Map / IndexedDB cache is pure
memoization of this value and is omitted).  Size 1: one single-node tree per
label 1..n.  Size >= 2: for each root label 1..n and each composition of
size - 1, the cartesian product of the tree lists for the parts gives the
children tuples; candidates are deduplicated by treeKey keeping first
occurrences.  Size 0 returns no trees: in the source compositions(-1)
yields nothing.  List.attach only records membership of each composition
and part, which bounds the parts for termination. -/
def treesOfSize (size n : Nat) : List Tree :=
  match size with
  | 0 => []
  | 1 => (List.range n).map (fun i => Tree.node (i + 1) [])
  | s + 2 =>
    dedupByKey
      ((List.range n).flatMap (fun rl =>
        (compositions (s + 1)).attach.flatMap (fun comp =>
          (cartesian (comp.val.attach.map (fun part => treesOfSize part.val n))).map
            (fun childrenCombo => Tree.node (rl + 1) childrenCombo))))
      []
termination_by size
decreasing_by
  have := mem_compositions_le (s + 1) comp.val part.val comp.property part.property
  omega

/-- The first m size-blocks yielded by the infinite generator allTrees(n)
of main.js, which yields every tree of treesOfSize(1, n), then of
treesOfSize(2, n), and so on: block k is treesOfSize(k + 1, n). -/
def allTreesPrefix (n m : Nat) : List Tree :=
  (List.range m).flatMap (fun k => treesOfSize (k + 1) n)

/-- isValidExtension(seq, t, pool) from main.js: one embedding test
embeds(seq[i], t) per element of seq, awaited in submission order,
short-circuiting to false at the first true result; the pool resolves every
submitted task with embeds(pattern, target) computed by tree-worker.js, so
the returned boolean is this sequential fold, independent of the pool. -/
def isValidExtension : List Tree → Tree → Bool
  | [], _ => true
  | s :: rest, t => if embeds s t then false else isValidExtension rest t

mutual

/-- Node count of a tree: 1 plus the sum of the node counts of the
children (the Size measure of the spec's data model). -/
def treeSize : Tree → Nat
  | .node _ cs => 1 + treeSizeList cs
termination_by t => sizeOf t
decreasing_by
  simp only [Tree.node.sizeOf_spec]; omega

/-- Sum of the node counts of a list of trees. -/
def treeSizeList : List Tree → Nat
  | [] => 0
  | t :: ts => treeSize t + treeSizeList ts
termination_by ts => sizeOf ts
decreasing_by
  · simp only [List.cons.sizeOf_spec]; omega
  · simp only [List.cons.sizeOf_spec]; omega

end

mutual

/-- Every label in the tree is a positive integer (in the source all labels
are drawn from 1..n). -/
def labelsPos : Tree → Bool
  | .node l cs => decide (1 ≤ l) && labelsPosList cs
termination_by t => sizeOf t
decreasing_by
  simp only [Tree.node.sizeOf_spec]; omega

/-- labelsPos for every tree in a list. -/
def labelsPosList : List Tree → Bool
  | [] => true
  | t :: ts => labelsPos t && labelsPosList ts
termination_by ts => sizeOf ts
decreasing_by
  · simp only [List.cons.sizeOf_spec]; omega
  · simp only [List.cons.sizeOf_spec]; omega

end

theorem attach_flatMap {α β : Type _} (l : List α) (f : α → List β) :
    (l.attach.flatMap fun c => f c.val) = l.flatMap f := by
  conv_rhs => rw [← List.attach_map_subtype_val l]
  rw [List.flatMap_map]

theorem attach_map {α β : Type _} (l : List α) (f : α → β) :
    (l.attach.map fun c => f c.val) = l.map f := by
  conv_rhs => rw [← List.attach_map_subtype_val l]
  rw [List.map_map]
  rfl

@[simp] theorem treesOfSize_zero (n : Nat) : treesOfSize 0 n = [] := by
  rw [treesOfSize]

@[simp] theorem treesOfSize_one (n : Nat) :
    treesOfSize 1 n = (List.range n).map (fun i => Tree.node (i + 1) []) := by
  rw [treesOfSize]

theorem attach_map_inst (n : Nat) (a : List Nat) :
    (a.attach.map fun part => treesOfSize part.val n) =
      a.map (fun part => treesOfSize part n) :=
  attach_map a (fun p => treesOfSize p n)

theorem attach_flatMap_inst (t n rl : Nat) :
    ((compositions t).attach.flatMap fun comp =>
      (cartesian (comp.val.map fun part => treesOfSize part n)).map
        (fun childrenCombo => Tree.node rl childrenCombo)) =
    (compositions t).flatMap fun comp =>
      (cartesian (comp.map fun part => treesOfSize part n)).map
        (fun childrenCombo => Tree.node rl childrenCombo) :=
  attach_flatMap (compositions t)
    (fun a => (cartesian (a.map fun part => treesOfSize part n)).map
      (fun childrenCombo => Tree.node rl childrenCombo))

theorem treesOfSize_succ_succ (s n : Nat) :
    treesOfSize (s + 2) n =
      dedupByKey
        ((List.range n).flatMap (fun rl =>
          (compositions (s + 1)).flatMap (fun comp =>
            (cartesian (comp.map (fun part => treesOfSize part n))).map
              (fun childrenCombo => Tree.node (rl + 1) childrenCombo))))
        [] := by
  rw [treesOfSize]
  simp only [attach_map_inst, attach_flatMap_inst]

theorem embeds_def (A B : Tree) :
    embeds A B = (rootEmbeds A B || embedsAnyChild A B.children) := by rw [embeds]

theorem embedsAnyChild_nil (A : Tree) : embedsAnyChild A [] = false := by
  rw [embedsAnyChild]

theorem embedsAnyChild_cons (A c : Tree) (rest : List Tree) :
    embedsAnyChild A (c :: rest) = (embeds A c || embedsAnyChild A rest) := by
  rw [embedsAnyChild]

theorem matchChildren_nil (tkids : List Tree) : matchChildren [] tkids = true := by
  rw [matchChildren]

theorem matchChildren_cons_nil (f : Tree) (rest : List Tree) :
    matchChildren (f :: rest) [] = false := by rw [matchChildren]

theorem matchChildren_cons_cons (f tc : Tree) (rest tr : List Tree) :
    matchChildren (f :: rest) (tc :: tr) =
      ((rootEmbeds f tc && matchChildren rest tr)
        || matchChildren (f :: rest) tc.children
        || matchChildren (f :: rest) tr) := by rw [matchChildren]

theorem rootEmbeds_def (p t : Tree) :
    rootEmbeds p t =
      (if p.label ≠ t.label then false
       else if p.children.isEmpty then true
       else matchChildren p.children t.children) := by rw [rootEmbeds]

theorem treeSize_node (l : Nat) (cs : List Tree) :
    treeSize (Tree.node l cs) = 1 + treeSizeList cs := by rw [treeSize]

theorem treeSizeList_nil : treeSizeList [] = 0 := by rw [treeSizeList]

theorem treeSizeList_cons (t : Tree) (ts : List Tree) :
    treeSizeList (t :: ts) = treeSize t + treeSizeList ts := by rw [treeSizeList]

theorem treeKey_leaf (l : Nat) : treeKey (Tree.node l []) = natChars l := by
  rw [treeKey]

theorem treeKey_node (l : Nat) (c : Tree) (cs : List Tree) :
    treeKey (Tree.node l (c :: cs)) =
      natChars l ++ [Char.ofNat 40] ++ treeKeyList (c :: cs) ++ [Char.ofNat 41] := by
  rw [treeKey]

theorem treeKeyList_single (t : Tree) : treeKeyList [t] = treeKey t := by
  rw [treeKeyList]

theorem treeKeyList_pair (t u : Tree) (ts : List Tree) :
    treeKeyList (t :: u :: ts) =
      treeKey t ++ [Char.ofNat 44] ++ treeKeyList (u :: ts) := by
  rw [treeKeyList]
  simp

theorem natChars_small (n : Nat) (h : n < 10) : natChars n = [Char.ofNat (48 + n)] := by
  rw [natChars]; simp [h]

theorem natChars_large (n : Nat) (h : ¬ n < 10) :
    natChars n = natChars (n / 10) ++ [Char.ofNat (48 + n % 10)] := by
  rw [natChars]; simp [h]

theorem labelsPos_node (l : Nat) (cs : List Tree) :
    labelsPos (Tree.node l cs) = (decide (1 ≤ l) && labelsPosList cs) := by
  rw [labelsPos]

theorem labelsPosList_nil : labelsPosList [] = true := by rw [labelsPosList]

theorem labelsPosList_cons (t : Tree) (ts : List Tree) :
    labelsPosList (t :: ts) = (labelsPos t && labelsPosList ts) := by
  rw [labelsPosList]

theorem dedupByKey_subset :
    ∀ (ts : List Tree) (seen : List (List Char)), ∀ t ∈ dedupByKey ts seen, t ∈ ts := by
  intro ts
  induction ts with
  | nil => intro seen t ht; simp [dedupByKey] at ht
  | cons u rest ih =>
    intro seen t ht
    rw [dedupByKey] at ht
    by_cases h : treeKey u ∈ seen
    · simp only [if_pos h] at ht
      exact List.mem_cons_of_mem u (ih seen t ht)
    · simp only [if_neg h] at ht
      rcases List.mem_cons.mp ht with h' | h'
      · simp [h']
      · exact List.mem_cons_of_mem u (ih _ t h')

theorem dedupByKey_keys :
    ∀ (ts : List Tree) (seen : List (List Char)),
      (dedupByKey ts seen).Pairwise (fun a b => treeKey a ≠ treeKey b) ∧
      ∀ t ∈ dedupByKey ts seen, treeKey t ∉ seen := by
  intro ts
  induction ts with
  | nil => intro seen; simp [dedupByKey]
  | cons u rest ih =>
    intro seen
    rw [dedupByKey]
    by_cases h : treeKey u ∈ seen
    · simpa only [if_pos h] using ih seen
    · simp only [if_neg h]
      have ihu := ih (treeKey u :: seen)
      refine ⟨List.Pairwise.cons ?_ ihu.1, ?_⟩
      · intro b hb
        have := ihu.2 b hb
        simp only [List.mem_cons, not_or] at this
        exact fun hk => this.1 hk.symm
      · intro t ht
        rcases List.mem_cons.mp ht with h' | h'
        · simpa [h'] using h
        · have := ihu.2 t h'
          simp only [List.mem_cons, not_or] at this
          exact this.2

theorem treesOfSize_label (size n : Nat) (t : Tree) (ht : t ∈ treesOfSize size n) :
    1 ≤ t.label ∧ t.label ≤ n := by
  match size with
  | 0 => simp at ht
  | 1 =>
    simp only [treesOfSize_one, List.mem_map, List.mem_range] at ht
    obtain ⟨i, hi, rfl⟩ := ht
    simp; omega
  | s + 2 =>
    rw [treesOfSize_succ_succ] at ht
    have := dedupByKey_subset _ _ t ht
    simp only [List.mem_flatMap, List.mem_map, List.mem_range] at this
    obtain ⟨rl, hrl, comp, hcomp, cc, hcc, rfl⟩ := this
    simp; omega

theorem sizeOf_cons_lt_head (c : Tree) (rest : List Tree) :
    sizeOf c < sizeOf (c :: rest) := by
  simp only [List.cons.sizeOf_spec]; omega

theorem sizeOf_cons_lt_tail (c : Tree) (rest : List Tree) :
    sizeOf rest < sizeOf (c :: rest) := by
  simp only [List.cons.sizeOf_spec]; omega

theorem embedsRefl_aux :
    ∀ N : Nat,
      (∀ t : Tree, sizeOf t < N → rootEmbeds t t = true) ∧
      (∀ cs : List Tree, sizeOf cs < N → matchChildren cs cs = true) := by
  intro N
  induction N using Nat.strong_induction_on with
  | _ N ih =>
    constructor
    · intro t hN
      cases t with
      | node l cs =>
        cases cs with
        | nil => simp [rootEmbeds_def]
        | cons c rest =>
          have hsz : sizeOf (c :: rest) < sizeOf (Tree.node l (c :: rest)) :=
            Tree.sizeOf_children_lt (Tree.node l (c :: rest))
          have hmc := (ih _ hN).2 (c :: rest) hsz
          simp [rootEmbeds_def, hmc]
    · intro cs hN
      cases cs with
      | nil => simp [matchChildren_nil]
      | cons c rest =>
        have hre := (ih _ hN).1 c (sizeOf_cons_lt_head c rest)
        have hmc := (ih _ hN).2 rest (sizeOf_cons_lt_tail c rest)
        rw [matchChildren_cons_cons]
        simp [hre, hmc]

theorem rootEmbeds_refl (t : Tree) : rootEmbeds t t = true :=
  (embedsRefl_aux (sizeOf t + 1)).1 t (Nat.lt_succ_self _)

/-- C3: embeds(A, A) is true for every finite labeled rooted tree A: the
embedding predicate is reflexive, via the identity embedding found by
rootEmbeds matching every child against itself in order. -/
theorem embeds_self (A : Tree) : embeds A A = true := by
  rw [embeds_def, rootEmbeds_refl A]
  simp

/-- C4: on the concrete examples, embeds(1(2), 1(3, 2)) is true: the single
pattern child 2 matches the second target child as an order-preserving
subsequence; and embeds(1(2, 3), 1(3, 2)) is false: the swapped sibling
order cannot be matched order-preservingly. -/
theorem embeds_order_examples :
    embeds (Tree.node 1 [Tree.node 2 []]) (Tree.node 1 [Tree.node 3 [], Tree.node 2 []]) =
      true ∧
    embeds (Tree.node 1 [Tree.node 2 [], Tree.node 3 []])
      (Tree.node 1 [Tree.node 3 [], Tree.node 2 []]) = false := by
  constructor <;>
    simp [embeds_def, embedsAnyChild_nil, embedsAnyChild_cons, matchChildren_nil,
      matchChildren_cons_nil, matchChildren_cons_cons, rootEmbeds_def]

/-- Characterization of isValidExtension: true exactly when no element of
seq embeds into the candidate. -/
theorem isValidExtension_true_iff (seq : List Tree) (t : Tree) :
    isValidExtension seq t = true ↔ ∀ s ∈ seq, embeds s t = false := by
  induction seq with
  | nil => simp [isValidExtension]
  | cons s rest ih =>
    cases h : embeds s t
    · have heq : isValidExtension (s :: rest) t = isValidExtension rest t := by
        simp [isValidExtension, h]
      rw [heq, ih]
      constructor
      · intro hall u hu
        rcases List.mem_cons.mp hu with rfl | hu'
        · exact h
        · exact hall u hu'
      · intro hall u hu
        exact hall u (List.mem_cons_of_mem s hu)
    · have heq : isValidExtension (s :: rest) t = false := by
        simp [isValidExtension, h]
      rw [heq]
      simp only [Bool.false_eq_true, false_iff]
      intro hall
      have hc := hall s (List.mem_cons_self s rest)
      rw [h] at hc
      simp at hc

/-- C1: isValidExtension(seq, t, pool) is true exactly when no tree s of seq
satisfies embeds(s, t); it is true on the empty sequence, and on s :: rest it
short-circuits to false as soon as embeds(s, t) holds, the result being the
deterministic sequential combination of the embeds values in sequence order,
for any pool. -/
theorem isValidExtension_correct (seq : List Tree) (t : Tree) :
    (isValidExtension seq t = true ↔ ∀ s ∈ seq, embeds s t = false) ∧
    isValidExtension [] t = true ∧
    (∀ (s : Tree) (rest : List Tree),
      isValidExtension (s :: rest) t =
        (if embeds s t then false else isValidExtension rest t)) :=
  ⟨isValidExtension_true_iff seq t, rfl, fun _ _ => rfl⟩

/-- C1 witness: the empty sequence is a valid extension for a concrete tree. -/
theorem isValidExtension_correct_witness :
    isValidExtension [] (Tree.node 1 []) = true :=
  (isValidExtension_correct [] (Tree.node 1 [])).2.1

theorem compositions_length_succ (t : Nat) :
    (compositions (t + 1)).length = ∑ j in Finset.range (t + 1), (compositions j).length := by
  rw [compositions_succ, List.length_flatMap]
  simp only [Function.comp_def, List.length_map]
  have hbridge : ((List.range (t + 1)).map fun k => (compositions (t - k)).length).sum
      = ∑ k in Finset.range (t + 1), (compositions (t - k)).length := rfl
  rw [hbridge]
  have hreflect := Finset.sum_range_reflect (fun j => (compositions j).length) (t + 1)
  simp only [Nat.add_sub_cancel] at hreflect
  exact hreflect

theorem compositions_length_pow (t : Nat) (ht : 1 ≤ t) :
    (compositions t).length = 2 ^ (t - 1) := by
  have hS : ∀ n : Nat, 1 ≤ n →
      (∑ j in Finset.range n, (compositions j).length) = 2 ^ (n - 1) := by
    intro n
    induction n with
    | zero => omega
    | succ m ihm =>
      intro _
      match m, ihm with
      | 0, _ => simp [compositions_zero]
      | k + 1, ihm =>
        rw [Finset.sum_range_succ, compositions_length_succ k, ihm (by omega)]
        simp only [Nat.add_sub_cancel, pow_succ]
        omega
  match t, ht with
  | s + 1, _ =>
    rw [compositions_length_succ s]
    simpa using hS (s + 1) (by omega)

/-- C5: compositions(total) yields exactly 2^(total-1) sequences for
total >= 1, each consisting of integers >= 1 summing to total, and
compositions(0) yields exactly one sequence, the empty sequence. -/
theorem compositions_spec (total : Nat) (h : 1 ≤ total) :
    (compositions total).length = 2 ^ (total - 1) ∧
    (∀ c ∈ compositions total, c.sum = total ∧ ∀ p ∈ c, 1 ≤ p) ∧
    compositions 0 = [[]] :=
  ⟨compositions_length_pow total h, compositions_sum_pos total, compositions_zero⟩

/-- C5 witness: the statement instantiated at total = 3. -/
theorem compositions_spec_witness :
    (compositions 3).length = 2 ^ (3 - 1) ∧
    (∀ c ∈ compositions 3, c.sum = 3 ∧ ∀ p ∈ c, 1 ≤ p) ∧
    compositions 0 = [[]] :=
  compositions_spec 3 (by decide)

theorem digit_toNat : ∀ d : Nat, d < 10 → (Char.ofNat (48 + d)).toNat = 48 + d := by
  decide

theorem digit_inj : ∀ d1 : Nat, d1 < 10 → ∀ d2 : Nat, d2 < 10 →
    Char.ofNat (48 + d1) = Char.ofNat (48 + d2) → d1 = d2 := by
  decide

theorem natChars_ne_nil (n : Nat) : natChars n ≠ [] := by
  by_cases h : n < 10
  · rw [natChars_small n h]; simp
  · rw [natChars_large n h]; simp

theorem natChars_digits :
    ∀ n : Nat, ∀ ch ∈ natChars n, 48 ≤ ch.toNat ∧ ch.toNat ≤ 57 := by
  intro n
  induction n using Nat.strong_induction_on with
  | _ n ih =>
    by_cases h : n < 10
    · rw [natChars_small n h]
      intro ch hch
      simp only [List.mem_singleton] at hch
      subst hch
      rw [digit_toNat n h]; omega
    · rw [natChars_large n h]
      intro ch hch
      rcases List.mem_append.mp hch with h1 | h2
      · exact ih (n / 10) (Nat.div_lt_self (by omega) (by omega)) ch h1
      · simp only [List.mem_singleton] at h2
        subst h2
        rw [digit_toNat (n % 10) (by omega)]; omega

theorem natChars_inj : ∀ a b : Nat, natChars a = natChars b → a = b := by
  intro a
  induction a using Nat.strong_induction_on with
  | _ a ih =>
    intro b h
    by_cases ha : a < 10 <;> by_cases hb : b < 10
    · rw [natChars_small a ha, natChars_small b hb] at h
      simp only [List.cons.injEq, and_true] at h
      exact digit_inj a ha b hb h
    · exfalso
      rw [natChars_small a ha, natChars_large b hb] at h
      have hlen := congrArg List.length h
      simp only [List.length_singleton, List.length_append] at hlen
      have := natChars_ne_nil (b / 10)
      have : (natChars (b / 10)).length ≠ 0 := fun hz => this (List.length_eq_zero.mp hz)
      omega
    · exfalso
      rw [natChars_large a ha, natChars_small b hb] at h
      have hlen := congrArg List.length h
      simp only [List.length_singleton, List.length_append] at hlen
      have := natChars_ne_nil (a / 10)
      have : (natChars (a / 10)).length ≠ 0 := fun hz => this (List.length_eq_zero.mp hz)
      omega
    · rw [natChars_large a ha, natChars_large b hb] at h
      obtain ⟨h3, h4⟩ := List.append_inj' h (by simp)
      have hdiv := ih (a / 10) (Nat.div_lt_self (by omega) (by omega)) (b / 10) h3
      simp only [List.cons.injEq, and_true] at h4
      have hmod := digit_inj (a % 10) (by omega) (b % 10) (by omega) h4
      omega

theorem treeSizeList_of_forall₂ (n bound : Nat)
    (hsize : ∀ p : Nat, p ≤ bound → ∀ c ∈ treesOfSize p n, treeSize c = p) :
    ∀ (cc : List Tree) (comp : List Nat),
      List.Forall₂ (fun c p => c ∈ treesOfSize p n) cc comp →
      (∀ p ∈ comp, p ≤ bound) → treeSizeList cc = comp.sum := by
  intro cc comp h
  induction h with
  | nil => intro _; simp [treeSizeList_nil]
  | @cons c p cc' comp' hcp htail ihh =>
    intro hb
    rw [treeSizeList_cons, hsize p (hb p (List.mem_cons_self p comp')) c hcp,
      ihh (fun q hq => hb q (List.mem_cons_of_mem p hq))]
    simp

theorem treesOfSize_size :
    ∀ (size n : Nat) (t : Tree), t ∈ treesOfSize size n → treeSize t = size := by
  intro size
  induction size using Nat.strong_induction_on with
  | _ size ih =>
    intro n t ht
    match size with
    | 0 => simp at ht
    | 1 =>
      simp only [treesOfSize_one, List.mem_map, List.mem_range] at ht
      obtain ⟨i, hi, rfl⟩ := ht
      rw [treeSize_node, treeSizeList_nil]
    | s + 2 =>
      rw [treesOfSize_succ_succ] at ht
      have hmem := dedupByKey_subset _ _ t ht
      simp only [List.mem_flatMap, List.mem_map, List.mem_range] at hmem
      obtain ⟨rl, hrl, comp, hcomp, cc, hcc, rfl⟩ := hmem
      have hforall := List.forall₂_map_right_iff.mp (mem_cartesian _ _ hcc)
      have hcs := compositions_sum_pos (s + 1) comp hcomp
      have hbound : ∀ p ∈ comp, p ≤ s + 1 :=
        fun p hp => mem_compositions_le (s + 1) comp p hcomp hp
      have hsz : treeSizeList cc = comp.sum :=
        treeSizeList_of_forall₂ n (s + 1)
          (fun p hp c hc => ih p (by omega) n c hc) cc comp hforall hbound
      rw [treeSize_node, hsz, hcs.1]
      omega

theorem treesOfSize_keys (size n : Nat) :
    (treesOfSize size n).Pairwise (fun a b => treeKey a ≠ treeKey b) := by
  match size with
  | 0 => simp
  | 1 =>
    rw [treesOfSize_one, List.pairwise_map]
    apply (List.pairwise_lt_range n).imp
    intro i j hij
    rw [treeKey_leaf, treeKey_leaf]
    intro hk
    have := natChars_inj (i + 1) (j + 1) hk
    omega
  | s + 2 =>
    rw [treesOfSize_succ_succ]
    exact (dedupByKey_keys _ _).1

/-- C2: for every size >= 1 and n >= 1, every tree returned by
treesOfSize(size, n) has node count exactly size, and no two returned trees
share a canonical key treeKey. -/
theorem treesOfSize_size_and_keys (size n : Nat) (_hs : 1 ≤ size) (_hn : 1 ≤ n) :
    (∀ t ∈ treesOfSize size n, treeSize t = size) ∧
    (treesOfSize size n).Pairwise (fun a b => treeKey a ≠ treeKey b) :=
  ⟨fun t ht => treesOfSize_size size n t ht, treesOfSize_keys size n⟩

/-- C2 witness: the statement instantiated at size = 2, n = 2. -/
theorem treesOfSize_size_and_keys_witness :
    (∀ t ∈ treesOfSize 2 2, treeSize t = 2) ∧
    (treesOfSize 2 2).Pairwise (fun a b => treeKey a ≠ treeKey b) :=
  treesOfSize_size_and_keys 2 2 (by decide) (by decide)

/-- C6: the infinite generator allTrees(n) yields the trees of size 1, then
of size 2, and so on: the prefix of the first s blocks is the previous
prefix followed by treesOfSize(s, n), it starts empty, and every tree of
treesOfSize(s, n) appears in the prefix of the first s blocks, so every
enumerated tree eventually appears, with sizes in increasing order starting
from size 1. -/
theorem allTrees_enumerates (n s : Nat) (hs : 1 ≤ s) :
    (∀ t ∈ treesOfSize s n, t ∈ allTreesPrefix n s) ∧
    (∀ m : Nat, allTreesPrefix n (m + 1) = allTreesPrefix n m ++ treesOfSize (m + 1) n) ∧
    allTreesPrefix n 0 = [] := by
  refine ⟨?_, ?_, rfl⟩
  · intro t ht
    unfold allTreesPrefix
    simp only [List.mem_flatMap, List.mem_range]
    refine ⟨s - 1, by omega, ?_⟩
    have heq : s - 1 + 1 = s := by omega
    rw [heq]
    exact ht
  · intro m
    unfold allTreesPrefix
    rw [List.range_succ]
    simp

/-- C6 witness: the statement instantiated at n = 1, s = 1. -/
theorem allTrees_enumerates_witness :
    (∀ t ∈ treesOfSize 1 1, t ∈ allTreesPrefix 1 1) ∧
    (∀ m : Nat, allTreesPrefix 1 (m + 1) = allTreesPrefix 1 m ++ treesOfSize (m + 1) 1) ∧
    allTreesPrefix 1 0 = [] :=
  allTrees_enumerates 1 1 (by decide)

theorem treeSize_pos (t : Tree) : 1 ≤ treeSize t := by
  cases t with
  | node l cs => rw [treeSize_node]; omega

theorem treeSize_eq_children (t : Tree) : treeSize t = 1 + treeSizeList t.children := by
  cases t with
  | node l cs => rw [treeSize_node, Tree.children_node]

theorem embedsSize_aux :
    ∀ N : Nat,
      (∀ A B : Tree, sizeOf B < N → embeds A B = true → treeSize A ≤ treeSize B) ∧
      (∀ A B : Tree, sizeOf B < N → rootEmbeds A B = true → treeSize A ≤ treeSize B) ∧
      (∀ ps ts : List Tree, sizeOf ts < N → matchChildren ps ts = true →
        treeSizeList ps ≤ treeSizeList ts) ∧
      (∀ (A : Tree) (cs : List Tree), sizeOf cs < N → embedsAnyChild A cs = true →
        treeSize A ≤ treeSizeList cs) := by
  intro N
  induction N using Nat.strong_induction_on with
  | _ N ih =>
    have h3 : ∀ ps ts : List Tree, sizeOf ts < N → matchChildren ps ts = true →
        treeSizeList ps ≤ treeSizeList ts := by
      intro ps ts hN h
      match ps, ts with
      | [], _ => rw [treeSizeList_nil]; exact Nat.zero_le _
      | f :: rest, [] => rw [matchChildren_cons_nil] at h; cases h
      | f :: rest, tc :: tr =>
        rw [matchChildren_cons_cons] at h
        have htc : sizeOf tc < sizeOf (tc :: tr) := sizeOf_cons_lt_head tc tr
        have htr : sizeOf tr < sizeOf (tc :: tr) := sizeOf_cons_lt_tail tc tr
        have ihts := ih (sizeOf (tc :: tr)) hN
        rcases Bool.or_eq_true_iff.mp h with h' | h'
        · rcases Bool.or_eq_true_iff.mp h' with h'' | h''
          · obtain ⟨hre, hmc⟩ := Bool.and_eq_true_iff.mp h''
            have hA := ihts.2.1 f tc htc hre
            have hrest := ihts.2.2.1 rest tr htr hmc
            rw [treeSizeList_cons, treeSizeList_cons]
            omega
          · have hltc : sizeOf tc.children < sizeOf (tc :: tr) :=
              lt_trans (Tree.sizeOf_children_lt tc) htc
            have hps := ihts.2.2.1 (f :: rest) tc.children hltc h''
            have h2 := treeSize_eq_children tc
            have hpos := treeSize_pos tc
            rw [treeSizeList_cons tc tr]
            omega
        · have hps := ihts.2.2.1 (f :: rest) tr htr h'
          have hpos := treeSize_pos tc
          rw [treeSizeList_cons tc tr]
          omega
    have h2 : ∀ A B : Tree, sizeOf B < N → rootEmbeds A B = true →
        treeSize A ≤ treeSize B := by
      intro A B hN h
      rw [rootEmbeds_def] at h
      by_cases hl : A.label ≠ B.label
      · simp [hl] at h
      · simp only [hl, if_false] at h
        by_cases he : A.children.isEmpty
        · have hpos := treeSize_pos B
          have hnil : A.children = [] := List.isEmpty_iff.mp he
          rw [treeSize_eq_children A, hnil, treeSizeList_nil]
          omega
        · simp only [he, if_false] at h
          have hlt : sizeOf B.children < N :=
            lt_trans (Tree.sizeOf_children_lt B) hN
          have hch := h3 A.children B.children hlt h
          have hA := treeSize_eq_children A
          have hB := treeSize_eq_children B
          omega
    have h4 : ∀ (A : Tree) (cs : List Tree), sizeOf cs < N → embedsAnyChild A cs = true →
        treeSize A ≤ treeSizeList cs := by
      intro A cs hN h
      match cs with
      | [] => rw [embedsAnyChild_nil] at h; cases h
      | c :: rest =>
        rw [embedsAnyChild_cons] at h
        have hc : sizeOf c < sizeOf (c :: rest) := sizeOf_cons_lt_head c rest
        have hr : sizeOf rest < sizeOf (c :: rest) := sizeOf_cons_lt_tail c rest
        have ihcs := ih (sizeOf (c :: rest)) hN
        rcases Bool.or_eq_true_iff.mp h with h' | h'
        · have := ihcs.1 A c hc h'
          have := treeSize_pos c
          rw [treeSizeList_cons]
          omega
        · have := ihcs.2.2.2 A rest hr h'
          rw [treeSizeList_cons]
          omega
    refine ⟨?_, h2, h3, h4⟩
    intro A B hN h
    rw [embeds_def] at h
    rcases Bool.or_eq_true_iff.mp h with h' | h'
    · exact h2 A B hN h'
    · have hlt : sizeOf B.children < N := lt_trans (Tree.sizeOf_children_lt B) hN
      have := h4 A B.children hlt h'
      have hB := treeSize_eq_children B
      omega

/-- C9: if embeds(A, B) is true then the node count of A is at most the node
count of B: the matcher maps distinct pattern nodes to distinct target nodes,
so a strictly larger pattern never embeds into a smaller target. -/
theorem embeds_size_le (A B : Tree) (h : embeds A B = true) :
    treeSize A ≤ treeSize B :=
  (embedsSize_aux (sizeOf B + 1)).1 A B (Nat.lt_succ_self _) h

/-- C9 witness: the theorem applied to two concrete single-node trees. -/
theorem embeds_size_le_witness :
    treeSize (Tree.node 1 []) ≤ treeSize (Tree.node 1 []) :=
  embeds_size_le (Tree.node 1 []) (Tree.node 1 [])
    (by simp [embeds_def, rootEmbeds_def])

theorem trees11 : treesOfSize 1 1 = [Tree.node 1 []] := by
  rw [treesOfSize_one]; rfl

theorem trees21 : treesOfSize 2 1 = [Tree.node 1 [Tree.node 1 []]] := by
  have h := treesOfSize_succ_succ 0 1
  norm_num at h
  rw [h]
  simp [compositions, cartesian, dedupByKey, trees11, List.range_succ]

/-- C7 counterexample: with n = 1 the enumeration is not made of single
nodes only, and embeds is not true for every pair of enumerated trees: the
tree 1(1) is in treesOfSize(2, 1) and has two nodes, and embeds(1(1), 1) is
false although both 1(1) and 1 are enumerated. -/
theorem tree_n1_counterexample :
    Tree.node 1 [Tree.node 1 []] ∈ treesOfSize 2 1 ∧
    treeSize (Tree.node 1 [Tree.node 1 []]) ≠ 1 ∧
    Tree.node 1 [] ∈ treesOfSize 1 1 ∧
    embeds (Tree.node 1 [Tree.node 1 []]) (Tree.node 1 []) = false := by
  refine ⟨?_, ?_, ?_, ?_⟩
  · rw [trees21]; simp
  · simp [treeSize_node, treeSizeList_cons, treeSizeList_nil]
  · rw [trees11]; simp
  · simp [embeds_def, rootEmbeds_def, embedsAnyChild_nil, embedsAnyChild_cons,
      matchChildren_cons_nil]

/-- C7 (amended): for n = 1, every enumerated tree has root label 1 (trees
of size >= 2 are not single nodes), treesOfSize(1, 1) is exactly the single
node labeled 1, that single node embeds into every enumerated tree, and
therefore no sequence containing it admits any enumerated tree as a valid
extension: no bad sequence longer than 1 is ever built, and best stays 1. -/
theorem tree_n1_amended (s : Nat) (_hs : 1 ≤ s) (t : Tree) (ht : t ∈ treesOfSize s 1) :
    t.label = 1 ∧
    embeds (Tree.node 1 []) t = true ∧
    (∀ seq : List Tree, Tree.node 1 [] ∈ seq → isValidExtension seq t = false) ∧
    treesOfSize 1 1 = [Tree.node 1 []] := by
  have hlab := treesOfSize_label s 1 t ht
  have hl : t.label = 1 := by omega
  have hemb : embeds (Tree.node 1 []) t = true := by
    rw [embeds_def, rootEmbeds_def]
    simp [hl]
  refine ⟨hl, hemb, ?_, trees11⟩
  intro seq hseq
  cases hvalid : isValidExtension seq t
  · rfl
  · exfalso
    have hall := (isValidExtension_true_iff seq t).mp hvalid (Tree.node 1 []) hseq
    rw [hemb] at hall
    simp at hall

/-- C7 (amended) witness: the statement applied at s = 1 and the single-node
tree labeled 1. -/
theorem tree_n1_amended_witness :
    (Tree.node 1 []).label = 1 ∧
    embeds (Tree.node 1 []) (Tree.node 1 []) = true ∧
    (∀ seq : List Tree, Tree.node 1 [] ∈ seq →
      isValidExtension seq (Tree.node 1 []) = false) ∧
    treesOfSize 1 1 = [Tree.node 1 []] :=
  tree_n1_amended 1 (by decide) (Tree.node 1 []) (by rw [trees11]; simp)

/-- C8: the mutually recursive embedding matcher is a total function on
finite well-formed trees: embeds, rootEmbeds and matchChildren are defined
for all inputs (the definitions above carry a well-founded measure on the
target side accepted by Lean), always return a boolean, and satisfy the
recursion equations of the source. -/
theorem matcher_total (A B f tc : Tree) (rest tr : List Tree) :
    (embeds A B = true ∨ embeds A B = false) ∧
    embeds A B = (rootEmbeds A B || embedsAnyChild A B.children) ∧
    rootEmbeds A B =
      (if A.label ≠ B.label then false
       else if A.children.isEmpty then true
       else matchChildren A.children B.children) ∧
    matchChildren [] tr = true ∧
    matchChildren (f :: rest) [] = false ∧
    matchChildren (f :: rest) (tc :: tr) =
      ((rootEmbeds f tc && matchChildren rest tr)
        || matchChildren (f :: rest) tc.children
        || matchChildren (f :: rest) tr) := by
  refine ⟨?_, embeds_def A B, rootEmbeds_def A B, matchChildren_nil tr,
    matchChildren_cons_nil f rest, matchChildren_cons_cons f tc rest tr⟩
  cases h : embeds A B
  · right; rfl
  · left; rfl

/-- The suffix is empty or starts with the comma or the right parenthesis:
the characters that can follow a child key inside a parent key. -/
def sepHead : List Char → Prop
  | [] => True
  | c :: _ => c = Char.ofNat 44 ∨ c = Char.ofNat 41

/-- The suffix starts with the right parenthesis. -/
def closeHead : List Char → Prop
  | [] => False
  | c :: _ => c = Char.ofNat 41

/-- The suffix is empty or starts with a non-digit character. -/
def nonDigitHead : List Char → Prop
  | [] => True
  | c :: _ => c.toNat < 48 ∨ 57 < c.toNat

theorem sepHead_nonDigit (s : List Char) (h : sepHead s) : nonDigitHead s := by
  cases s with
  | nil => trivial
  | cons c r =>
    rcases h with h | h <;> subst h <;> exact Or.inl (by decide)

theorem closeHead_sepHead (s : List Char) (h : closeHead s) : sepHead s := by
  cases s with
  | nil => cases h
  | cons c r => exact Or.inr h

theorem digit_block_inj :
    ∀ xs : List Char, (∀ c ∈ xs, 48 ≤ c.toNat ∧ c.toNat ≤ 57) →
    ∀ ys : List Char, (∀ c ∈ ys, 48 ≤ c.toNat ∧ c.toNat ≤ 57) →
    ∀ s1 s2 : List Char, nonDigitHead s1 → nonDigitHead s2 →
      xs ++ s1 = ys ++ s2 → xs = ys ∧ s1 = s2 := by
  intro xs
  induction xs with
  | nil =>
    intro _ ys hys s1 s2 h1 h2 heq
    cases ys with
    | nil => simpa using heq
    | cons y yr =>
      exfalso
      simp only [List.nil_append, List.cons_append] at heq
      subst heq
      have hy := hys y (List.mem_cons_self y yr)
      rcases h1 with h | h <;> omega
  | cons x xr ih =>
    intro hxs ys hys s1 s2 h1 h2 heq
    cases ys with
    | nil =>
      exfalso
      simp only [List.cons_append, List.nil_append] at heq
      rw [← heq] at h2
      have hx := hxs x (List.mem_cons_self x xr)
      rcases h2 with h | h <;> omega
    | cons y yr =>
      simp only [List.cons_append, List.cons.injEq] at heq
      obtain ⟨rfl, heq'⟩ := heq
      have htail := ih (fun c hc => hxs c (List.mem_cons_of_mem x hc)) yr
        (fun c hc => hys c (List.mem_cons_of_mem x hc)) s1 s2 h1 h2 heq'
      exact ⟨by rw [htail.1], htail.2⟩

theorem treeKey_append_inj_aux :
    ∀ N : Nat,
      (∀ t1 t2 : Tree, sizeOf t1 < N → ∀ s1 s2 : List Char, sepHead s1 → sepHead s2 →
        treeKey t1 ++ s1 = treeKey t2 ++ s2 → t1 = t2 ∧ s1 = s2) ∧
      (∀ cs1 cs2 : List Tree, sizeOf cs1 < N → cs1 ≠ [] → cs2 ≠ [] →
        ∀ s1 s2 : List Char, closeHead s1 → closeHead s2 →
        treeKeyList cs1 ++ s1 = treeKeyList cs2 ++ s2 → cs1 = cs2 ∧ s1 = s2) := by
  intro N
  induction N using Nat.strong_induction_on with
  | _ N ih =>
    have hlist : ∀ cs1 cs2 : List Tree, sizeOf cs1 < N → cs1 ≠ [] → cs2 ≠ [] →
        ∀ s1 s2 : List Char, closeHead s1 → closeHead s2 →
        treeKeyList cs1 ++ s1 = treeKeyList cs2 ++ s2 → cs1 = cs2 ∧ s1 = s2 := by
      intro cs1 cs2 hN hne1 hne2 s1 s2 hc1 hc2 heq
      match cs1, cs2 with
      | [], _ => exact absurd rfl hne1
      | _ :: _, [] => exact absurd rfl hne2
      | c1 :: rest1, c2 :: rest2 =>
        have ihN := ih (sizeOf (c1 :: rest1)) hN
        have hc1sz : sizeOf c1 < sizeOf (c1 :: rest1) := sizeOf_cons_lt_head c1 rest1
        match rest1, rest2 with
        | [], [] =>
          rw [treeKeyList_single, treeKeyList_single] at heq
          have tp := ihN.1 c1 c2 hc1sz s1 s2 (closeHead_sepHead s1 hc1)
            (closeHead_sepHead s2 hc2) heq
          exact ⟨by rw [tp.1], tp.2⟩
        | [], u2 :: r2 =>
          exfalso
          rw [treeKeyList_single, treeKeyList_pair] at heq
          simp only [List.append_assoc, List.singleton_append, List.cons_append] at heq
          have tp := ihN.1 c1 c2 hc1sz s1
            (Char.ofNat 44 :: (treeKeyList (u2 :: r2) ++ s2))
            (closeHead_sepHead s1 hc1) (Or.inl rfl) heq
          have := tp.2
          rw [this] at hc1
          have : Char.ofNat 44 = Char.ofNat 41 := hc1
          exact absurd this (by decide)
        | u1 :: r1, [] =>
          exfalso
          rw [treeKeyList_pair, treeKeyList_single] at heq
          simp only [List.append_assoc, List.singleton_append, List.cons_append] at heq
          have tp := ihN.1 c1 c2 hc1sz
            (Char.ofNat 44 :: (treeKeyList (u1 :: r1) ++ s1)) s2
            (Or.inl rfl) (closeHead_sepHead s2 hc2) heq
          have := tp.2.symm
          rw [this] at hc2
          have : Char.ofNat 44 = Char.ofNat 41 := hc2
          exact absurd this (by decide)
        | u1 :: r1, u2 :: r2 =>
          rw [treeKeyList_pair, treeKeyList_pair] at heq
          simp only [List.append_assoc, List.singleton_append, List.cons_append] at heq
          have tp := ihN.1 c1 c2 hc1sz
            (Char.ofNat 44 :: (treeKeyList (u1 :: r1) ++ s1))
            (Char.ofNat 44 :: (treeKeyList (u2 :: r2) ++ s2))
            (Or.inl rfl) (Or.inl rfl) heq
          have heq' : treeKeyList (u1 :: r1) ++ s1 = treeKeyList (u2 :: r2) ++ s2 := by
            have := tp.2
            simpa using this
          have hr1sz : sizeOf (u1 :: r1) < sizeOf (c1 :: u1 :: r1) :=
            sizeOf_cons_lt_tail c1 (u1 :: r1)
          have lp := ihN.2 (u1 :: r1) (u2 :: r2) hr1sz (by simp) (by simp)
            s1 s2 hc1 hc2 heq'
          exact ⟨by rw [tp.1, lp.1], lp.2⟩
    have htree : ∀ t1 t2 : Tree, sizeOf t1 < N →
        ∀ s1 s2 : List Char, sepHead s1 → sepHead s2 →
        treeKey t1 ++ s1 = treeKey t2 ++ s2 → t1 = t2 ∧ s1 = s2 := by
      intro t1 t2 hN s1 s2 h1 h2 heq
      match t1, t2 with
      | Tree.node l1 cs1, Tree.node l2 cs2 =>
        match cs1, cs2 with
        | [], [] =>
          rw [treeKey_leaf, treeKey_leaf] at heq
          have hb := digit_block_inj (natChars l1) (natChars_digits l1)
            (natChars l2) (natChars_digits l2) s1 s2
            (sepHead_nonDigit s1 h1) (sepHead_nonDigit s2 h2) heq
          have := natChars_inj l1 l2 hb.1
          exact ⟨by rw [this], hb.2⟩
        | [], u2 :: r2 =>
          exfalso
          rw [treeKey_leaf, treeKey_node] at heq
          simp only [List.append_assoc, List.singleton_append, List.cons_append] at heq
          have hb := digit_block_inj (natChars l1) (natChars_digits l1)
            (natChars l2) (natChars_digits l2) s1
            (Char.ofNat 40 :: (treeKeyList (u2 :: r2) ++ Char.ofNat 41 :: s2))
            (sepHead_nonDigit s1 h1) (Or.inl (by decide)) heq
          have hs1 := hb.2
          rw [hs1] at h1
          rcases h1 with h | h <;> exact absurd h.symm (by decide)
        | u1 :: r1, [] =>
          exfalso
          rw [treeKey_node, treeKey_leaf] at heq
          simp only [List.append_assoc, List.singleton_append, List.cons_append] at heq
          have hb := digit_block_inj (natChars l1) (natChars_digits l1)
            (natChars l2) (natChars_digits l2)
            (Char.ofNat 40 :: (treeKeyList (u1 :: r1) ++ Char.ofNat 41 :: s1)) s2
            (Or.inl (by decide)) (sepHead_nonDigit s2 h2) heq
          have hs2 := hb.2.symm
          rw [hs2] at h2
          rcases h2 with h | h <;> exact absurd h.symm (by decide)
        | u1 :: r1, u2 :: r2 =>
          rw [treeKey_node, treeKey_node] at heq
          simp only [List.append_assoc, List.singleton_append, List.cons_append] at heq
          have hb := digit_block_inj (natChars l1) (natChars_digits l1)
            (natChars l2) (natChars_digits l2)
            (Char.ofNat 40 :: (treeKeyList (u1 :: r1) ++ Char.ofNat 41 :: s1))
            (Char.ofNat 40 :: (treeKeyList (u2 :: r2) ++ Char.ofNat 41 :: s2))
            (Or.inl (by decide)) (Or.inl (by decide)) heq
          have hlab := natChars_inj l1 l2 hb.1
          have heq' : treeKeyList (u1 :: r1) ++ Char.ofNat 41 :: s1 =
              treeKeyList (u2 :: r2) ++ Char.ofNat 41 :: s2 := by
            have := hb.2
            simpa using this
          have hcs : sizeOf (u1 :: r1) < N := by
            have h1' := Tree.sizeOf_children_lt (Tree.node l1 (u1 :: r1))
            simp only [Tree.children_node] at h1'
            omega
          have lp := hlist (u1 :: r1) (u2 :: r2) hcs (by simp) (by simp)
            (Char.ofNat 41 :: s1) (Char.ofNat 41 :: s2) rfl rfl heq'
          have hs : s1 = s2 := by
            have := lp.2
            simpa using this
          exact ⟨by rw [hlab, lp.1], hs⟩
    exact ⟨htree, hlist⟩

theorem treeKey_inj (t1 t2 : Tree) (h : treeKey t1 = treeKey t2) : t1 = t2 := by
  have heq : treeKey t1 ++ ([] : List Char) = treeKey t2 ++ ([] : List Char) := by
    simpa using h
  exact ((treeKey_append_inj_aux (sizeOf t1 + 1)).1 t1 t2 (Nat.lt_succ_self _)
    [] [] trivial trivial heq).1

/-- C10: the canonical key treeKey is injective on trees with positive
integer labels: treeKey t1 = treeKey t2 holds exactly when t1 and t2 are
structurally equal (same label and recursively equal children in the same
order), so deduplication by key keeps exactly one representative per
structural equivalence class. -/
theorem treeKey_injective_iff (t1 t2 : Tree)
    (_h1 : labelsPos t1 = true) (_h2 : labelsPos t2 = true) :
    treeKey t1 = treeKey t2 ↔ t1 = t2 :=
  ⟨fun h => treeKey_inj t1 t2 h, fun h => by rw [h]⟩

/-- C10 witness: the statement applied to two concrete positive-labeled
trees. -/
theorem treeKey_injective_iff_witness :
    treeKey (Tree.node 1 [Tree.node 2 []]) = treeKey (Tree.node 1 [Tree.node 2 []]) ↔
      Tree.node 1 [Tree.node 2 []] = Tree.node 1 [Tree.node 2 []] :=
  treeKey_injective_iff (Tree.node 1 [Tree.node 2 []]) (Tree.node 1 [Tree.node 2 []])
    (by simp [labelsPos_node, labelsPosList_cons, labelsPosList_nil])
    (by simp [labelsPos_node, labelsPosList_cons, labelsPosList_nil])

end Tree3
